import Mathlib

/-!
Verification of the blockchain-storage ledger core.

This file gives a shallow embedding of the repository's core data model and
operations (Merkle tree construction and proofs, block hashing and validity,
the proof-of-work miner with bounded retries, and the blockchain container
with its lookup indices and persistence), and proves the specified
properties about them.

Modelling conventions:
- Byte slices (`[]byte`) are modelled as `List Nat`, each entry one byte.
- `sha256.Sum256` is modelled as a parameter `H : Bytes → Bytes`: the
  development is universally quantified over the digest function, and the
  claims that rely on collision resistance take an injectivity hypothesis
  (the idealised model of a cryptographic hash).
- `time.Time` values only enter the code through their `String()`
  rendering inside `calculateHash` and through reassignment from
  `time.Now()`; a timestamp is therefore modelled as the byte string of
  its rendering, with `time.Now()` values supplied nondeterministically.
- Go `int` is 64-bit here; `math.MaxInt` is `2^63 - 1`.
-/

namespace BlockchainStorage

/-- Byte strings: each element is one byte (0..255). -/
abbrev Bytes := List Nat

/-- Model of `new(big.Int).SetBytes` — big-endian interpretation of a byte slice. -/
def bytesToNat (b : Bytes) : Nat := b.foldl (fun acc x => acc * 256 + x) 0

/-- One lowercase hex digit, as its ASCII code (`hex` package encoding). -/
def hexDigit (n : Nat) : Nat := if n < 10 then 48 + n else 87 + n

/-- Model of `hex.EncodeToString`: two lowercase hex characters per byte. -/
def hexEncode (b : Bytes) : Bytes :=
  b.flatMap fun x => [hexDigit (x / 16), hexDigit (x % 16)]

/-- Decimal digits of a natural number, most significant first, as ASCII
codes. The first argument is structural fuel (`n` itself suffices). -/
def natDecimal : Nat → Nat → List Nat
  | 0, n => [48 + n % 10]
  | fuel + 1, n => if n < 10 then [48 + n] else natDecimal fuel (n / 10) ++ [48 + n % 10]

/-- Model of `strconv.FormatInt(i, 10)`: decimal rendering with a leading `-` for
negative numbers, as ASCII codes. -/
def intStr (i : Int) : Bytes :=
  if i < 0 then 45 :: natDecimal i.natAbs i.natAbs else natDecimal i.natAbs i.natAbs

/-- UTF-8 encoding of a Unicode code point (valid scalar values only need
the four standard ranges; callers guarantee validity). -/
def utf8Encode (c : Nat) : Bytes :=
  if c < 0x80 then [c]
  else if c < 0x800 then [0xC0 + c / 64, 0x80 + c % 64]
  else if c < 0x10000 then [0xE0 + c / 4096, 0x80 + c / 64 % 64, 0x80 + c % 64]
  else [0xF0 + c / 262144, 0x80 + c / 4096 % 64, 0x80 + c / 64 % 64, 0x80 + c % 64]

/-- Go's `string(rune(n))` for `n : int`: the int is first truncated to a
32-bit rune (two's complement wrap), then rendered as UTF-8; any invalid
code point (negative, a surrogate, or above U+10FFFF) is replaced by
U+FFFD, the Unicode replacement character. -/
def runeEnc (n : Int) : Bytes :=
  let m : Int := n % (2 ^ 32 : Int)
  let r : Int := if m < 2 ^ 31 then m else m - 2 ^ 32
  if r < 0 ∨ (0xD800 ≤ r ∧ r ≤ 0xDFFF) ∨ 0x10FFFF < r then utf8Encode 0xFFFD
  else utf8Encode r.toNat

/-- Model of `math.MaxInt` for a 64-bit Go `int`. -/
def maxInt : Int := 2 ^ 63 - 1

/-- Two's-complement wrap of an integer into the signed 64-bit range:
the value Go `int64` arithmetic produces. `wrapInt64 (n + 1)` is the Go
expression `n + 1`; it equals mathematical succession for every
representable `n` except `2^63 - 1`, where it wraps to `-2^63`. -/
def wrapInt64 (n : Int) : Int := (n + 2 ^ 63) % 2 ^ 64 - 2 ^ 63

theorem wrapInt64_eq_self (n : Int) (h1 : -(2 ^ 63) ≤ n) (h2 : n < 2 ^ 63) :
    wrapInt64 n = n := by
  unfold wrapInt64
  omega

theorem wrapInt64_maxInt_succ : wrapInt64 (maxInt + 1) = -(2 ^ 63) := by decide

/-- The `Block` struct (`block.go`). The timestamp is the byte string of
the `time.Time`'s rendering (see the file header). -/
structure Block where
  index : Int
  timestamp : Bytes
  merkelRoot : Bytes
  prevHash : Bytes
  hash : Bytes
  nonce : Int
  deriving DecidableEq, Repr

instance : Inhabited Block := ⟨⟨0, [], [], [], [], 0⟩⟩

/-- Model of `(block *Block) calculateHash()`: the digest of the concatenation of
the decimal index, the timestamp string, `string(rune(nonce))`, the
Merkle root and the previous hash. -/
def calculateHash (H : Bytes → Bytes) (block : Block) : Bytes :=
  H (intStr block.index ++ block.timestamp ++ runeEnc block.nonce
      ++ block.merkelRoot ++ block.prevHash)

/-- Model of `maxHash`: the largest 256-bit value, `2^256 - 1` (`block.go` init). -/
def maxHash : Nat := 2 ^ 256 - 1

/-- The numeric proof-of-work target, `maxHash >> difficulty`. -/
def target (difficulty : Nat) : Nat := maxHash >>> difficulty

/-- Model of `(block *Block) isValid(prevBlock, difficulty)` (`block.go`): the
sequence of early-return checks, ending with the numeric target
comparison. The index check compares against the Go `int64` expression
`prevBlock.Index+1`, whose addition wraps (`wrapInt64`). -/
def isValid (H : Bytes → Bytes) (block prevBlock : Block) (difficulty : Nat) : Bool :=
  if ¬(block.hash = calculateHash H block) then false
  else if ¬(block.prevHash = prevBlock.hash) then false
  else if ¬(block.index = wrapInt64 (prevBlock.index + 1)) then false
  else if target difficulty < bytesToNat block.hash then false
  else true

/-- Claim C2: `isValid(prevBlock, d)` is true exactly when the stored hash
matches a fresh `calculateHash()`, `prevHash` equals the previous block's
hash, the index equals the previous index plus one — the plus being the
program's wrapping `int64` addition, which coincides with mathematical
succession for every representable index except `2^63 - 1`
(`wrapInt64_eq_self`, `wrapInt64_maxInt_succ`) — and the hash's
big-endian integer value is at most `target d = (2^256 - 1) >> d`. -/
theorem isValid_iff_four_conditions (H : Bytes → Bytes) (b pb : Block) (d : Nat) :
    isValid H b pb d = true ↔
      (b.hash = calculateHash H b ∧ b.prevHash = pb.hash ∧
        b.index = wrapInt64 (pb.index + 1) ∧ bytesToNat b.hash ≤ target d) := by
  unfold isValid
  split_ifs with h1 h2 h3 h4 <;> simp_all

/-! ## Merkle tree (`merkletree.go`, proof protocol in the ledger package)

The Go tree is a pointer structure whose internal nodes hold `Left`/`Right`
child pointers (and, in the proof-bearing version, `Parent`
back-references). Here a node is a plain inductive value; proof
generation, which the source performs by walking `Parent` pointers from
`Leaves[i]` upward, is expressed by tracking the node's position in each
level bottom-up — the sibling of the node at position `p` of a (padded)
level is at position `p ^^^ 1`, and its parent sits at position `p / 2` of
the next level, which is exactly what the pointer walk computes. A
duplicated last node pairs with itself, and the source's
`parent.Left != node` pointer comparison then selects the `Right` branch,
i.e. the step is recorded with `Left = false`, which the position rule
reproduces (an even position records its right-hand sibling). -/

/-- A Merkle node: a leaf holds `digest(chunk)`, an internal node holds
its children and `digest(left.hash ++ right.hash)`. -/
inductive MNode where
  | leaf (hash : Bytes)
  | node (left right : MNode) (hash : Bytes)
  deriving DecidableEq, Repr

instance : Inhabited MNode := ⟨.leaf []⟩

/-- The stored hash of a node. -/
def MNode.hash : MNode → Bytes
  | .leaf h => h
  | .node _ _ h => h

/-- Model of `newLeafMerkleNode`: hash the chunk into a leaf. -/
def newLeafMerkleNode (H : Bytes → Bytes) (fileChunk : Bytes) : MNode :=
  .leaf (H fileChunk)

/-- Model of `newMerkleNode`: an internal node over two children. -/
def newMerkleNode (H : Bytes → Bytes) (left right : MNode) : MNode :=
  .node left right (H (left.hash ++ right.hash))

/-- The odd-level padding step of `newMerkleTree`: append a second
reference to the last node when the level has odd length. -/
def dupLast (level : List MNode) : List MNode :=
  if level.length % 2 = 1 then level ++ [level.getLastD default] else level

/-- The pairing step of `newMerkleTree`: combine adjacent nodes
left-to-right (the caller always supplies an even-length level). -/
def pairUp (H : Bytes → Bytes) : List MNode → List MNode
  | [] => []
  | [_] => []
  | a :: b :: rest => newMerkleNode H a b :: pairUp H rest

theorem length_pairUp (H : Bytes → Bytes) :
    ∀ l : List MNode, (pairUp H l).length = l.length / 2
  | [] => rfl
  | [_] => by simp [pairUp]
  | _ :: _ :: rest => by
    simp only [pairUp, List.length_cons, length_pairUp H rest]
    omega

theorem length_dupLast (l : List MNode) :
    (dupLast l).length = if l.length % 2 = 1 then l.length + 1 else l.length := by
  unfold dupLast
  split <;> simp

theorem level_step_lt (H : Bytes → Bytes) (l : List MNode) (h : 2 ≤ l.length) :
    (pairUp H (dupLast l)).length < l.length := by
  rw [length_pairUp, length_dupLast]
  split <;> omega

/-- The bottom-up level loop of `newMerkleTree`: pad the level to even
length, pair adjacent nodes, and repeat until one node remains. The
source indexes `currentLevel[0]` at the end and panics on an empty
input; the empty case (never reached from `newMerkleTree`) returns the
default node. -/
def buildRoot (H : Bytes → Bytes) (level : List MNode) : MNode :=
  if _h : level.length ≤ 1 then level.headD default
  else buildRoot H (pairUp H (dupLast level))
termination_by level.length
decreasing_by exact level_step_lt H level (by omega)

theorem buildRoot_of_le_one (H : Bytes → Bytes) (level : List MNode)
    (h : level.length ≤ 1) : buildRoot H level = level.headD default := by
  rw [buildRoot, dif_pos h]

theorem buildRoot_of_lt (H : Bytes → Bytes) (level : List MNode)
    (h : 1 < level.length) :
    buildRoot H level = buildRoot H (pairUp H (dupLast level)) := by
  rw [buildRoot, dif_neg (by omega)]

/-- Model of `MerkleTree`: the root and the ordered leaves. -/
structure MerkleTree where
  root : MNode
  leaves : List MNode
  deriving DecidableEq, Repr

/-- Model of `newMerkleTree(fileChunks)`: hash every chunk into a leaf, then build
bottom-up. On an empty input the source panics (`currentLevel[0]` on an
empty slice); that failure is modelled as `none`. -/
def newMerkleTree (H : Bytes → Bytes) (fileChunks : List Bytes) : Option MerkleTree :=
  match fileChunks.map (newLeafMerkleNode H) with
  | [] => none
  | leaves@(_ :: _) => some ⟨buildRoot H leaves, leaves⟩

/-- Model of `MerkleProofStep`: a sibling hash and whether it is a left child. -/
structure MerkleProofStep where
  hash : Bytes
  left : Bool
  deriving DecidableEq, Repr

instance : Inhabited MerkleProofStep := ⟨[], false⟩

/-- The upward walk of `generateMerkleProof`, by level and position: at
each level the sibling of the node at position `pos` of the padded level
is recorded (a right-hand sibling for even `pos`, a left-hand one for
odd `pos`), and the walk continues at position `pos / 2` of the next
level. -/
def genProofAux (H : Bytes → Bytes) (level : List MNode) (pos : Nat) : List MerkleProofStep :=
  if _h : level.length ≤ 1 then []
  else
    let padded := dupLast level
    let step :=
      if pos % 2 = 1 then MerkleProofStep.mk ((padded.getD (pos - 1) default).hash) true
      else MerkleProofStep.mk ((padded.getD (pos + 1) default).hash) false
    step :: genProofAux H (pairUp H padded) (pos / 2)
termination_by level.length
decreasing_by exact level_step_lt H level (by omega)

/-- Model of `(merkleTree *MerkleTree) generateMerkleProof(chunkIndex)`. -/
def generateMerkleProof (H : Bytes → Bytes) (merkleTree : MerkleTree) (chunkIndex : Nat) :
    List MerkleProofStep :=
  genProofAux H merkleTree.leaves chunkIndex

/-- The fold performed by `validateMerkleProof` over the proof steps. -/
def foldProof (H : Bytes → Bytes) (start : Bytes) (proof : List MerkleProofStep) : Bytes :=
  proof.foldl
    (fun hash step => if step.left then H (step.hash ++ hash) else H (hash ++ step.hash))
    start

/-- Model of `validateMerkleProof(data, merkleRoot, merkleProof)`: refold the
digest of the data through the proof steps and compare with the claimed
root. -/
def validateMerkleProof (H : Bytes → Bytes) (data : Bytes) (merkleRoot : Bytes)
    (merkleProof : List MerkleProofStep) : Bool :=
  foldProof H (H data) merkleProof = merkleRoot

theorem genProofAux_of_le_one (H : Bytes → Bytes) (level : List MNode) (pos : Nat)
    (h : level.length ≤ 1) : genProofAux H level pos = [] := by
  rw [genProofAux, dif_pos h]

theorem genProofAux_of_lt (H : Bytes → Bytes) (level : List MNode) (pos : Nat)
    (h : 1 < level.length) :
    genProofAux H level pos =
      (if pos % 2 = 1 then
          MerkleProofStep.mk (((dupLast level).getD (pos - 1) default).hash) true
        else MerkleProofStep.mk (((dupLast level).getD (pos + 1) default).hash) false) ::
        genProofAux H (pairUp H (dupLast level)) (pos / 2) := by
  rw [genProofAux, dif_neg (by omega)]

theorem getD_dupLast (l : List MNode) (pos : Nat) (h : pos < l.length) :
    (dupLast l).getD pos default = l.getD pos default := by
  unfold dupLast
  split
  · exact List.getD_append _ _ _ _ h
  · rfl

theorem dupLast_even (l : List MNode) : (dupLast l).length % 2 = 0 := by
  rw [length_dupLast]
  split <;> omega

theorem pairUp_getD (H : Bytes → Bytes) :
    ∀ (l : List MNode) (k : Nat), 2 * k + 1 < l.length →
      (pairUp H l).getD k default =
        newMerkleNode H (l.getD (2 * k) default) (l.getD (2 * k + 1) default)
  | [], k, h => by simp at h
  | [_], k, h => by simp at h
  | a :: b :: rest, 0, _ => by simp [pairUp]
  | a :: b :: rest, k + 1, h => by
    have hrest : 2 * k + 1 < rest.length := by simp at h; omega
    have heq : 2 * (k + 1) = 2 * k + 1 + 1 := by omega
    simp only [pairUp, heq, List.getD_cons_succ]
    exact pairUp_getD H rest k hrest

theorem foldProof_cons (H : Bytes → Bytes) (start : Bytes) (step : MerkleProofStep)
    (rest : List MerkleProofStep) :
    foldProof H start (step :: rest) =
      foldProof H (if step.left then H (step.hash ++ start) else H (start ++ step.hash)) rest :=
  rfl

/-- The central construction/verification correspondence: refolding the
hash stored at position `pos` of a level through the upward proof walk
yields the hash of the root built from that level. -/
theorem foldProof_genProofAux (H : Bytes → Bytes) (level : List MNode) (pos : Nat)
    (hpos : pos < level.length) :
    foldProof H ((level.getD pos default).hash) (genProofAux H level pos) =
      (buildRoot H level).hash := by
  by_cases h1 : level.length ≤ 1
  · match level, hpos with
    | [x], hpos =>
      have hp0 : pos = 0 := Nat.lt_one_iff.mp (by simpa using hpos)
      subst hp0
      rw [genProofAux_of_le_one _ _ _ h1, buildRoot_of_le_one _ _ h1]
      rfl
  · have h2 : 1 < level.length := by omega
    rw [genProofAux_of_lt _ _ _ h2, buildRoot_of_lt _ _ h2]
    have hple : level.length ≤ (dupLast level).length := by
      rw [length_dupLast]; split <;> omega
    have hpev : (dupLast level).length % 2 = 0 := dupLast_even level
    have hpos' : pos < (dupLast level).length := by omega
    have hnext : pos / 2 < (pairUp H (dupLast level)).length := by
      rw [length_pairUp]; omega
    rw [foldProof_cons]
    by_cases hpar : pos % 2 = 1
    · have hsib : 2 * (pos / 2) = pos - 1 := by omega
      have hsib1 : 2 * (pos / 2) + 1 = pos := by omega
      have hlt : 2 * (pos / 2) + 1 < (dupLast level).length := by omega
      rw [if_pos hpar]
      have hstep :
          (if (MerkleProofStep.mk (((dupLast level).getD (pos - 1) default).hash) true).left then
              H ((MerkleProofStep.mk (((dupLast level).getD (pos - 1) default).hash) true).hash ++
                  (level.getD pos default).hash)
            else
              H ((level.getD pos default).hash ++
                  (MerkleProofStep.mk (((dupLast level).getD (pos - 1) default).hash) true).hash)) =
            ((pairUp H (dupLast level)).getD (pos / 2) default).hash := by
        rw [pairUp_getD H _ _ hlt, hsib1, hsib, getD_dupLast _ _ hpos]
        rfl
      rw [hstep]
      exact foldProof_genProofAux H (pairUp H (dupLast level)) (pos / 2) hnext
    · have hsib : 2 * (pos / 2) = pos := by omega
      have hsib1 : 2 * (pos / 2) + 1 = pos + 1 := by omega
      have hlt : 2 * (pos / 2) + 1 < (dupLast level).length := by omega
      rw [if_neg hpar]
      have hstep :
          (if (MerkleProofStep.mk (((dupLast level).getD (pos + 1) default).hash) false).left then
              H ((MerkleProofStep.mk (((dupLast level).getD (pos + 1) default).hash) false).hash ++
                  (level.getD pos default).hash)
            else
              H ((level.getD pos default).hash ++
                  (MerkleProofStep.mk (((dupLast level).getD (pos + 1) default).hash) false).hash)) =
            ((pairUp H (dupLast level)).getD (pos / 2) default).hash := by
        rw [pairUp_getD H _ _ hlt, hsib1, hsib, getD_dupLast _ _ hpos]
        rfl
      rw [hstep]
      exact foldProof_genProofAux H (pairUp H (dupLast level)) (pos / 2) hnext
termination_by level.length
decreasing_by all_goals exact level_step_lt H level (by omega)

/-- For an injective digest, refolding is injective in the starting hash. -/
theorem foldProof_inj (H : Bytes → Bytes) (hinj : Function.Injective H) :
    ∀ (proof : List MerkleProofStep) (s1 s2 : Bytes),
      foldProof H s1 proof = foldProof H s2 proof → s1 = s2
  | [], s1, s2, h => h
  | step :: rest, s1, s2, h => by
    rw [foldProof_cons, foldProof_cons] at h
    have h' := foldProof_inj H hinj rest _ _ h
    by_cases hl : step.left
    · rw [if_pos hl, if_pos hl] at h'
      exact List.append_cancel_left (hinj h')
    · rw [if_neg hl, if_neg hl] at h'
      exact List.append_cancel_right (hinj h')

/-- For an injective digest, altering the sibling hash of any one proof
step changes the refolded result. -/
theorem foldProof_set_ne (H : Bytes → Bytes) (hinj : Function.Injective H) :
    ∀ (proof : List MerkleProofStep) (j : Nat), j < proof.length →
      ∀ s' : Bytes, s' ≠ (proof.getD j default).hash → ∀ start : Bytes,
        foldProof H start (proof.set j ⟨s', (proof.getD j default).left⟩) ≠
          foldProof H start proof
  | [], j, hj, _, _, _ => by simp at hj
  | step :: rest, 0, _, s', hne, start => by
    simp only [List.getD_cons_zero] at hne ⊢
    rw [List.set_cons_zero, foldProof_cons, foldProof_cons]
    intro h
    have h' := foldProof_inj H hinj rest _ _ h
    by_cases hl : step.left <;> simp only [hl, if_pos, if_neg, Bool.false_eq_true,
      ite_true, ite_false] at h'
    · exact hne (List.append_cancel_right (hinj h'))
    · exact hne (List.append_cancel_left (hinj h'))
  | step :: rest, j + 1, hj, s', hne, start => by
    simp only [List.getD_cons_succ] at hne ⊢
    rw [List.set_cons_succ, foldProof_cons, foldProof_cons]
    exact foldProof_set_ne H hinj rest j (by simp at hj; omega) s' hne _

/-- Claim C9: a 3-chunk tree duplicates the third leaf (the root's right
child pairs that leaf with itself) and its root hash is
`H (H (h1 ++ h2) ++ H (h3 ++ h3))` where `hi = H (chunk i)`. -/
theorem merkle_three_chunks (H : Bytes → Bytes) (c1 c2 c3 : Bytes) :
    newMerkleTree H [c1, c2, c3] =
      some ⟨newMerkleNode H
              (newMerkleNode H (newLeafMerkleNode H c1) (newLeafMerkleNode H c2))
              (newMerkleNode H (newLeafMerkleNode H c3) (newLeafMerkleNode H c3)),
            [newLeafMerkleNode H c1, newLeafMerkleNode H c2, newLeafMerkleNode H c3]⟩ ∧
    (newMerkleNode H
        (newMerkleNode H (newLeafMerkleNode H c1) (newLeafMerkleNode H c2))
        (newMerkleNode H (newLeafMerkleNode H c3) (newLeafMerkleNode H c3))).hash =
      H (H (H c1 ++ H c2) ++ H (H c3 ++ H c3)) := by
  constructor
  · simp only [newMerkleTree, List.map]
    rw [buildRoot_of_lt _ _ (by simp)]
    have hd : dupLast [newLeafMerkleNode H c1, newLeafMerkleNode H c2, newLeafMerkleNode H c3] =
        [newLeafMerkleNode H c1, newLeafMerkleNode H c2, newLeafMerkleNode H c3,
          newLeafMerkleNode H c3] := by
      simp [dupLast]
    rw [hd]
    simp only [pairUp]
    rw [buildRoot_of_lt _ _ (by simp)]
    have hd2 : dupLast [newMerkleNode H (newLeafMerkleNode H c1) (newLeafMerkleNode H c2),
        newMerkleNode H (newLeafMerkleNode H c3) (newLeafMerkleNode H c3)] =
        [newMerkleNode H (newLeafMerkleNode H c1) (newLeafMerkleNode H c2),
          newMerkleNode H (newLeafMerkleNode H c3) (newLeafMerkleNode H c3)] := by
      simp [dupLast]
    rw [hd2]
    simp only [pairUp]
    rw [buildRoot_of_le_one _ _ (by simp)]
    rfl
  · simp [newMerkleNode, newLeafMerkleNode, MNode.hash]

theorem newMerkleTree_eq (H : Bytes → Bytes) (c : Bytes) (cs : List Bytes) :
    newMerkleTree H (c :: cs) =
      some ⟨buildRoot H ((c :: cs).map (newLeafMerkleNode H)),
        (c :: cs).map (newLeafMerkleNode H)⟩ := by
  simp [newMerkleTree]

/-- Claim C1: for a tree built from a non-empty chunk sequence and any
valid leaf index, the generated proof verifies against the tree's root
hash; and (for an injective digest) verification fails whenever the chunk
data, the claimed root, or the sibling hash of any single proof step is
altered. -/
theorem merkle_roundtrip (H : Bytes → Bytes) (hinj : Function.Injective H)
    (chunks : List Bytes) (i : Nat) (t : MerkleTree)
    (hsome : newMerkleTree H chunks = some t) (hi : i < chunks.length) :
    validateMerkleProof H (chunks.getD i []) t.root.hash (generateMerkleProof H t i) = true ∧
    (∀ root', root' ≠ t.root.hash →
      validateMerkleProof H (chunks.getD i []) root' (generateMerkleProof H t i) = false) ∧
    (∀ data', data' ≠ chunks.getD i [] →
      validateMerkleProof H data' t.root.hash (generateMerkleProof H t i) = false) ∧
    (∀ j, j < (generateMerkleProof H t i).length → ∀ s',
      s' ≠ ((generateMerkleProof H t i).getD j default).hash →
      validateMerkleProof H (chunks.getD i []) t.root.hash
        ((generateMerkleProof H t i).set j
          ⟨s', ((generateMerkleProof H t i).getD j default).left⟩) = false) := by
  match chunks, hi with
  | c :: cs, hi =>
    rw [newMerkleTree_eq] at hsome
    cases hsome
    set leaves := (c :: cs).map (newLeafMerkleNode H) with hleaves
    have hil : i < leaves.length := by
      rw [hleaves, List.length_map]
      exact hi
    have hleaf : (leaves.getD i default).hash = H ((c :: cs).getD i []) := by
      rw [List.getD_eq_getElem _ _ hil, List.getD_eq_getElem _ _ hi]
      simp only [hleaves, List.getElem_map]
      rfl
    have hfold : foldProof H (H ((c :: cs).getD i [])) (genProofAux H leaves i) =
        (buildRoot H leaves).hash := by
      rw [← hleaf]
      exact foldProof_genProofAux H leaves i hil
    have hgen : generateMerkleProof H ⟨buildRoot H leaves, leaves⟩ i =
        genProofAux H leaves i := rfl
    have hroot : (MerkleTree.mk (buildRoot H leaves) leaves).root.hash =
        (buildRoot H leaves).hash := rfl
    refine ⟨?_, ?_, ?_, ?_⟩
    · rw [hgen, hroot]
      simp only [validateMerkleProof, decide_eq_true_eq]
      exact hfold
    · intro root' hne
      rw [hroot] at hne
      rw [hgen]
      simp only [validateMerkleProof, decide_eq_false_iff_not]
      rw [hfold]
      exact fun h => hne h.symm
    · intro data' hne
      rw [hgen, hroot]
      simp only [validateMerkleProof, decide_eq_false_iff_not]
      intro h
      rw [← hfold] at h
      exact hne (hinj (foldProof_inj H hinj _ _ _ h))
    · intro j hj s' hne
      rw [hgen] at hj hne ⊢
      rw [hroot]
      simp only [validateMerkleProof, decide_eq_false_iff_not]
      intro h
      rw [← hfold] at h
      exact foldProof_set_ne H hinj _ j hj s' hne _ h
  | [], hi => exact absurd hi (by simp)

/-- A concrete injective digest used to instantiate the idealised-hash
hypotheses on concrete inputs: append the input's length. -/
def dInj (b : Bytes) : Bytes := b ++ [b.length]

theorem dInj_injective : Function.Injective dInj := by
  intro a b h
  unfold dInj at h
  have hlen : a.length = b.length := by
    have := congrArg List.length h
    simp at this
    omega
  exact List.append_inj_left h (by omega)

/-- The two-chunk tree over `dInj` used to exercise `merkle_roundtrip`. -/
def wTree : MerkleTree :=
  ⟨buildRoot dInj (([[0], [1]] : List Bytes).map (newLeafMerkleNode dInj)),
    ([[0], [1]] : List Bytes).map (newLeafMerkleNode dInj)⟩

theorem wTree_root : wTree.root = newMerkleNode dInj (MNode.leaf [0, 1]) (MNode.leaf [1, 1]) := by
  show buildRoot dInj [newLeafMerkleNode dInj [0], newLeafMerkleNode dInj [1]] = _
  rw [buildRoot_of_lt _ _ (by simp)]
  have hd : dupLast [newLeafMerkleNode dInj [0], newLeafMerkleNode dInj [1]] =
      [newLeafMerkleNode dInj [0], newLeafMerkleNode dInj [1]] := by
    simp [dupLast]
  rw [hd]
  simp only [pairUp]
  rw [buildRoot_of_le_one _ _ (by simp)]
  rfl

theorem wTree_proof : generateMerkleProof dInj wTree 0 = [⟨[1, 1], false⟩] := by
  show genProofAux dInj [newLeafMerkleNode dInj [0], newLeafMerkleNode dInj [1]] 0 = _
  rw [genProofAux_of_lt _ _ _ (by simp)]
  have hd : dupLast [newLeafMerkleNode dInj [0], newLeafMerkleNode dInj [1]] =
      [newLeafMerkleNode dInj [0], newLeafMerkleNode dInj [1]] := by
    simp [dupLast]
  rw [hd]
  simp only [pairUp]
  rw [genProofAux_of_le_one _ _ _ (by simp)]
  rfl

/-- Witness for C1: the round-trip theorem applied to the concrete
two-chunk tree over the injective digest `dInj`, with the root, the data
and the single proof step each altered in turn. -/
theorem merkle_roundtrip_witness :
    validateMerkleProof dInj [0] wTree.root.hash (generateMerkleProof dInj wTree 0) = true ∧
    validateMerkleProof dInj [0] [] (generateMerkleProof dInj wTree 0) = false ∧
    validateMerkleProof dInj [9] wTree.root.hash (generateMerkleProof dInj wTree 0) = false ∧
    validateMerkleProof dInj [0] wTree.root.hash
      ((generateMerkleProof dInj wTree 0).set 0
        ⟨[], ((generateMerkleProof dInj wTree 0).getD 0 default).left⟩) = false := by
  have h := merkle_roundtrip dInj dInj_injective [[0], [1]] 0 wTree
    (by rw [newMerkleTree_eq]; rfl) (by simp)
  refine ⟨h.1, ?_, ?_, ?_⟩
  · exact h.2.1 [] (by rw [wTree_root]; simp [newMerkleNode, MNode.hash, dInj])
  · exact h.2.2.1 [9] (by simp)
  · exact h.2.2.2 0 (by rw [wTree_proof]; simp) [] (by rw [wTree_proof]; simp)

/-! ## Proof-of-work miner (`Mine` / `proofOfWorkMiner`, core package)

`Mine` runs up to `retries` attempts. Each attempt spawns `workers`
goroutines; worker `i` owns a private copy of the block, starts at nonce
`i` and steps by `workers`, reporting the first nonce whose hash meets
the target, or exhaustion when the next increment would overflow the
`int` range. The attempt ends at the first reported success (the block's
`Hash`/`Nonce` are set from it and `Mine` returns `nil`), or — only if
every worker reported exhaustion — the block's timestamp is reset to
`time.Now()` and the next attempt starts; after `retries` failed
attempts `Mine` returns an error.

A single worker's search is a deterministic function (`workerFind`).
Which worker wins the race is scheduler-dependent, so `Mine` is modelled
as an inductive relation `MineRel` quantified over the winning worker
and over the `time.Now()` values (`tss`, one per failed attempt); an
attempt can end in exhaustion only when every worker's search reports
exhaustion, because a worker that finds a result sends it on the result
channel and never signals failure, and the main loop keeps selecting
until either a result arrives or all `workers` failure signals did. -/

/-- Model of `PowResult`: the nonce/hash pair reported by a successful worker. -/
structure PowResult where
  nonce : Int
  hash : Bytes
  deriving DecidableEq, Repr

/-- The loop body of `proofOfWorkMiner`: hash the private copy at its
current nonce; report success when the hash meets the target; report
exhaustion (`none`) when incrementing the nonce would overflow; else
step the nonce by the worker count. The positivity argument reflects
that a worker only runs when at least one worker was spawned. -/
def minerLoop (H : Bytes → Bytes) (tgt : Nat) (inc : Nat) (hinc : 0 < inc)
    (block : Block) : Option PowResult :=
  if bytesToNat (calculateHash H block) ≤ tgt then
    some ⟨block.nonce, calculateHash H block⟩
  else if _h2 : maxInt - (inc : Int) < block.nonce then none
  else minerLoop H tgt inc hinc {block with nonce := block.nonce + (inc : Int)}
termination_by (maxInt + (inc : Int) - block.nonce).toNat
decreasing_by omega

/-- Model of `proofOfWorkMiner(ctx, target, startNonce, nonceIncrement, ...)` run
to completion without cancellation: the private copy starts at
`startNonce` and steps by `inc`. A zero increment is never used (no
workers are spawned when `workers = 0`). -/
def workerFind (H : Bytes → Bytes) (tgt : Nat) (block : Block) (startNonce : Nat)
    (inc : Nat) : Option PowResult :=
  if h : 0 < inc then minerLoop H tgt inc h {block with nonce := (startNonce : Int)}
  else none

/-- The outcome of `Mine`: `nil` with the sealed block, or the
`failed to mine block` error with the block in its final (unsealed)
state. -/
inductive MineRes where
  | ok (block : Block)
  | err (block : Block)
  deriving DecidableEq, Repr

/-- The attempt/retry structure of `Mine(difficulty, workers, retries)`
over the numeric target. `retries` counts the remaining attempts and
`tss` lists the `time.Now()` values consumed by failed attempts, in
order. An attempt either ends with some worker's search result sealing
the block, or — when every worker's search reports exhaustion — resets
the timestamp and continues with one fewer retry; with no retries left,
`Mine` returns the error with the block as it stands. -/
inductive MineRel (H : Bytes → Bytes) (w : Nat) (tgt : Nat) :
    Nat → List Bytes → Block → MineRes → Prop where
  | found (retries : Nat) (block : Block) (i : Nat) (r : PowResult)
      (hr : 0 < retries) (hi : i < w)
      (hfind : workerFind H tgt block i w = some r) :
      MineRel H w tgt retries [] block (.ok {block with hash := r.hash, nonce := r.nonce})
  | exhaust (retries : Nat) (ts : Bytes) (tss : List Bytes) (block : Block) (res : MineRes)
      (hr : 0 < retries)
      (hall : ∀ i, i < w → workerFind H tgt block i w = none)
      (hrec : MineRel H w tgt (retries - 1) tss {block with timestamp := ts} res) :
      MineRel H w tgt retries (ts :: tss) block res
  | fail (block : Block) : MineRel H w tgt 0 [] block (.err block)

/-- A successful `minerLoop` result meets the target, and its hash is the
block's hash at the reported nonce. -/
theorem minerLoop_some (H : Bytes → Bytes) (tgt inc : Nat) (hinc : 0 < inc)
    (block : Block) (r : PowResult) (h : minerLoop H tgt inc hinc block = some r) :
    bytesToNat r.hash ≤ tgt ∧ r.hash = calculateHash H {block with nonce := r.nonce} := by
  rw [minerLoop] at h
  split at h
  · cases h
    constructor
    · assumption
    · rfl
  · split at h
    · cases h
    · exact minerLoop_some H tgt inc hinc {block with nonce := block.nonce + (inc : Int)} r h
termination_by (maxInt + (inc : Int) - block.nonce).toNat
decreasing_by omega

theorem workerFind_some (H : Bytes → Bytes) (tgt : Nat) (block : Block)
    (startNonce inc : Nat) (r : PowResult)
    (h : workerFind H tgt block startNonce inc = some r) :
    bytesToNat r.hash ≤ tgt ∧ r.hash = calculateHash H {block with nonce := r.nonce} := by
  rw [workerFind] at h
  split at h
  · exact minerLoop_some H tgt inc _ {block with nonce := (startNonce : Int)} r h
  · cases h

theorem mineRel_ok (H : Bytes → Bytes) (w tgt retries : Nat) (tss : List Bytes)
    (b : Block) (res : MineRes) (hm : MineRel H w tgt retries tss b res) :
    ∀ b', res = .ok b' → bytesToNat b'.hash ≤ tgt ∧ b'.hash = calculateHash H b' := by
  induction hm with
  | found retries block i r hr hi hfind =>
    intro b' hb'
    cases hb'
    have h := workerFind_some H tgt block i w r hfind
    exact ⟨h.1, h.2⟩
  | exhaust retries ts tss block res hr hall hrec ih =>
    intro b' hb'
    exact ih b' hb'
  | fail block =>
    intro b' hb'
    cases hb'

/-- Claim C3: if `Mine(difficulty, workers, retries)` returns success,
the block's hash value is at most `target difficulty` and the stored hash
equals `calculateHash()` of the block's final field values. -/
theorem mine_success_bound (H : Bytes → Bytes) (difficulty w retries : Nat)
    (tss : List Bytes) (b b' : Block)
    (hm : MineRel H w (target difficulty) retries tss b (.ok b')) :
    bytesToNat b'.hash ≤ target difficulty ∧ b'.hash = calculateHash H b' :=
  mineRel_ok H w (target difficulty) retries tss b (.ok b') hm b' rfl

/-- Witness for C3: a one-worker, one-retry mine over the constant empty
digest succeeds immediately at nonce 0. -/
theorem mine_success_bound_witness :
    bytesToNat (Block.mk 0 [] [] [] [] 0).hash ≤ target 0 ∧
      (Block.mk 0 [] [] [] [] 0).hash =
        calculateHash (fun _ => []) (Block.mk 0 [] [] [] [] 0) := by
  have hfind : workerFind (fun _ => []) (target 0) (Block.mk 0 [] [] [] [] 0) 0 1 =
      some ⟨0, []⟩ := by
    rw [workerFind, dif_pos (by omega), minerLoop, if_pos (by simp [calculateHash, bytesToNat])]
    rfl
  exact mine_success_bound (fun _ => []) 0 1 1 [] (Block.mk 0 [] [] [] [] 0)
    (Block.mk 0 [] [] [] [] 0)
    (MineRel.found 1 (Block.mk 0 [] [] [] [] 0) 0 ⟨0, []⟩ (by omega) (by omega) hfind)

theorem mineRel_err (H : Bytes → Bytes) (w tgt retries : Nat) (tss : List Bytes)
    (b : Block) (res : MineRes) (hm : MineRel H w tgt retries tss b res) :
    ∀ b', res = .err b' →
      tss.length = retries ∧
      b'.hash = b.hash ∧ b'.nonce = b.nonce ∧ b'.index = b.index ∧
      b'.merkelRoot = b.merkelRoot ∧ b'.prevHash = b.prevHash ∧
      b'.timestamp = tss.getLastD b.timestamp ∧
      (0 < retries → ∀ i, i < w → workerFind H tgt b i w = none) ∧
      (∀ j, j + 1 < retries → ∀ i, i < w →
        workerFind H tgt {b with timestamp := tss.getD j b.timestamp} i w = none) := by
  induction hm with
  | found retries block i r hr hi hfind =>
    intro b' hb'
    cases hb'
  | fail block =>
    intro b' hb'
    cases hb'
    refine ⟨rfl, rfl, rfl, rfl, rfl, rfl, rfl, ?_, ?_⟩
    · intro h
      exact absurd h (by omega)
    · intro j hj
      exact absurd hj (by omega)
  | exhaust retries ts tss block res hr hall hrec ih =>
    intro b' hb'
    obtain ⟨hlen, hh, hn, hix, hmr, hph, hts, hfirst, hrest⟩ := ih b' hb'
    refine ⟨by simp only [List.length_cons]; omega, hh, hn, hix, hmr, hph, ?_, ?_, ?_⟩
    · rw [hts, List.getLastD_cons]
    · intro _ i hi
      exact hall i hi
    · intro j hj i hi
      match j with
      | 0 =>
        have h1 : 0 < retries - 1 := by omega
        exact hfirst h1 i hi
      | k + 1 =>
        have hk : k + 1 < retries - 1 := by omega
        have hget : (ts :: tss).getD (k + 1) block.timestamp = tss.getD k ts := by
          rw [List.getD_cons_succ]
          have hkl : k < tss.length := by omega
          rw [List.getD_eq_getElem _ _ hkl, List.getD_eq_getElem _ _ hkl]
        rw [hget]
        exact hrest k hk i hi

/-- Claim C4: `Mine` returns the mining-exhausted error only after
`retries` consecutive attempts in each of which every worker's search
reported exhaustion; the error leaves the block's hash, nonce, index,
Merkle root and previous hash unchanged, while the timestamp was
advanced once per failed attempt (one `time.Now()` value per attempt,
the block ending on the last of them). -/
theorem mine_exhaust_spec (H : Bytes → Bytes) (difficulty w retries : Nat)
    (tss : List Bytes) (b b' : Block)
    (hm : MineRel H w (target difficulty) retries tss b (.err b')) :
    tss.length = retries ∧
    b'.hash = b.hash ∧ b'.nonce = b.nonce ∧ b'.index = b.index ∧
    b'.merkelRoot = b.merkelRoot ∧ b'.prevHash = b.prevHash ∧
    b'.timestamp = tss.getLastD b.timestamp ∧
    (0 < retries → ∀ i, i < w →
      workerFind H (target difficulty) b i w = none) ∧
    (∀ j, j + 1 < retries → ∀ i, i < w →
      workerFind H (target difficulty) {b with timestamp := tss.getD j b.timestamp} i w =
        none) :=
  mineRel_err H w (target difficulty) retries tss b (.err b') hm b' rfl

/-- Witness for C4: with zero workers every attempt exhausts vacuously,
so a one-retry mine fails, leaving all sealing fields unchanged and the
timestamp advanced to the single `time.Now()` value. -/
theorem mine_exhaust_spec_witness :
    ([[7]] : List Bytes).length = 1 ∧
    (Block.mk 0 [7] [] [] [] 0).hash = (Block.mk 0 [] [] [] [] 0).hash ∧
    (Block.mk 0 [7] [] [] [] 0).nonce = (Block.mk 0 [] [] [] [] 0).nonce ∧
    (Block.mk 0 [7] [] [] [] 0).index = (Block.mk 0 [] [] [] [] 0).index ∧
    (Block.mk 0 [7] [] [] [] 0).merkelRoot = (Block.mk 0 [] [] [] [] 0).merkelRoot ∧
    (Block.mk 0 [7] [] [] [] 0).prevHash = (Block.mk 0 [] [] [] [] 0).prevHash ∧
    (Block.mk 0 [7] [] [] [] 0).timestamp =
      ([[7]] : List Bytes).getLastD (Block.mk 0 [] [] [] [] 0).timestamp ∧
    (0 < 1 → ∀ i, i < 0 →
      workerFind (fun _ => [9]) (target 5) (Block.mk 0 [] [] [] [] 0) i 0 = none) ∧
    (∀ j, j + 1 < 1 → ∀ i, i < 0 →
      workerFind (fun _ => [9]) (target 5)
        {Block.mk 0 [] [] [] [] 0 with
          timestamp := ([[7]] : List Bytes).getD j (Block.mk 0 [] [] [] [] 0).timestamp}
        i 0 = none) :=
  mine_exhaust_spec (fun _ => [9]) 5 0 1 [[7]] (Block.mk 0 [] [] [] [] 0)
    (Block.mk 0 [7] [] [] [] 0)
    (MineRel.exhaust 1 [7] [] (Block.mk 0 [] [] [] [] 0) (.err (Block.mk 0 [7] [] [] [] 0))
      (by omega) (fun i hi => absurd hi (by omega))
      (MineRel.fail (Block.mk 0 [7] [] [] [] 0)))

/-! ## Blockchain container (`core/blockchain.go`)

The two Go maps (`map[string]*Block` keyed by hex-encoded hash or Merkle
root) are modelled as association lists with assignment-as-cons and
first-match lookup, which realises the map's last-write-wins overwrite
semantics. Pointer sharing is immaterial: blocks are immutable values
here. -/

/-- A Go map assignment `m[k] = b`. -/
def mapInsert (m : List (Bytes × Block)) (k : Bytes) (block : Block) :
    List (Bytes × Block) :=
  (k, block) :: m

/-- A Go map read `m[k]` with its `found` flag folded into `Option`. -/
def mapLookup (m : List (Bytes × Block)) (k : Bytes) : Option Block :=
  (m.find? fun p => p.1 = k).map fun p => p.2

/-- The `Blockchain` struct: the ordered block sequence plus the two
derived lookup maps. -/
structure Blockchain where
  blocks : List Block
  blocksMapByHash : List (Bytes × Block)
  blocksMapByMerkelRoot : List (Bytes × Block)
  deriving Repr

/-- Model of `addBlock`: append to the sequence and insert into both maps. -/
def addBlock (blockchain : Blockchain) (block : Block) : Blockchain :=
  { blocks := blockchain.blocks ++ [block]
    blocksMapByHash := mapInsert blockchain.blocksMapByHash (hexEncode block.hash) block
    blocksMapByMerkelRoot :=
      mapInsert blockchain.blocksMapByMerkelRoot (hexEncode block.merkelRoot) block }

/-- Model of `lastBlock` (`Blocks[len(Blocks)-1]`; the empty-chain panic is
modelled as `none`). -/
def lastBlock (blockchain : Blockchain) : Option Block :=
  blockchain.blocks.getLast?

/-- Model of `length()`. -/
def chainLength (blockchain : Blockchain) : Nat :=
  blockchain.blocks.length

/-- Model of `getBlockByHash`: map lookup, `none` for the not-found error. -/
def getBlockByHash (blockchain : Blockchain) (hash : Bytes) : Option Block :=
  mapLookup blockchain.blocksMapByHash (hexEncode hash)

/-- Model of `getBlockByMerkelRoot`: map lookup, `none` for the not-found error. -/
def getBlockByMerkelRoot (blockchain : Blockchain) (merkelRoot : Bytes) : Option Block :=
  mapLookup blockchain.blocksMapByMerkelRoot (hexEncode merkelRoot)

/-- The adjacent-pair loop of `validateChain`: `Blocks[i].PrevHash` must
equal `Blocks[i-1].Hash` for every `i ≥ 1`. -/
def chainLinked : List Block → Bool
  | [] => true
  | [_] => true
  | a :: b :: rest => (decide (b.prevHash = a.hash)) && chainLinked (b :: rest)

/-- Model of `validateChain()`. -/
def validateChain (blockchain : Blockchain) : Bool :=
  chainLinked blockchain.blocks

/-- Model of `writeToFile`: only the block sequence is serialized (the maps are
deliberately dropped); the JSON encode/decode pair is modelled as the
identity on the list of block records, per the persisted format of the
spec. -/
def writeToFile (blockchain : Blockchain) : List Block :=
  blockchain.blocks

/-- Model of `blockchainFromFile`: rebuild both maps from the loaded sequence by
inserting every block in order. -/
def blockchainFromFile (blocks : List Block) : Blockchain :=
  { blocks := blocks
    blocksMapByHash :=
      blocks.foldl (fun m block => mapInsert m (hexEncode block.hash) block) []
    blocksMapByMerkelRoot :=
      blocks.foldl (fun m block => mapInsert m (hexEncode block.merkelRoot) block) [] }

theorem mapLookup_insert_self (m : List (Bytes × Block)) (k : Bytes) (block : Block) :
    mapLookup (mapInsert m k block) k = some block := by
  simp [mapLookup, mapInsert]

theorem mapLookup_insert_ne (m : List (Bytes × Block)) (k k' : Bytes) (block : Block)
    (h : k ≠ k') : mapLookup (mapInsert m k block) k' = mapLookup m k' := by
  simp only [mapLookup, mapInsert]
  rw [List.find?_cons_of_neg _ (by simpa using h)]

theorem mapLookup_foldl (f : Block → Bytes) :
    ∀ (bs : List Block) (acc : List (Bytes × Block)) (k : Bytes),
      ((∃ b1, mapLookup acc k = some b1 ∧ f b1 = k) ∨ (∃ b ∈ bs, f b = k)) →
      ∃ b1, mapLookup (bs.foldl (fun m block => mapInsert m (f block) block) acc) k =
          some b1 ∧ f b1 = k
  | [], acc, k, h => by
    rcases h with h | ⟨b, hb, _⟩
    · exact h
    · simp at hb
  | x :: rest, acc, k, h => by
    rw [List.foldl_cons]
    apply mapLookup_foldl f rest (mapInsert acc (f x) x) k
    by_cases hx : f x = k
    · left
      refine ⟨x, ?_, hx⟩
      rw [← hx]
      exact mapLookup_insert_self acc (f x) x
    · rcases h with ⟨b1, hl, hfb⟩ | ⟨b, hb, hfb⟩
      · left
        exact ⟨b1, by rw [mapLookup_insert_ne _ _ _ _ hx]; exact hl, hfb⟩
      · rcases List.mem_cons.mp hb with rfl | hb'
        · exact absurd hfb hx
        · exact Or.inr ⟨b, hb', hfb⟩

/-- Claim C10: `addBlock` never rejects or deduplicates — it always
appends (length grows by one, the new block becomes `lastBlock`) and
overwrites both lookup-map entries, so each getter afterwards returns
the most recently added block under that key. This holds for every
block, in particular one whose hash or Merkle root duplicates a stored
block's. -/
theorem addBlock_always_appends (c : Blockchain) (b : Block) :
    (addBlock c b).blocks = c.blocks ++ [b] ∧
    chainLength (addBlock c b) = chainLength c + 1 ∧
    lastBlock (addBlock c b) = some b ∧
    getBlockByHash (addBlock c b) b.hash = some b ∧
    getBlockByMerkelRoot (addBlock c b) b.merkelRoot = some b := by
  refine ⟨rfl, ?_, ?_, ?_, ?_⟩
  · simp [chainLength, addBlock]
  · exact List.getLast?_concat c.blocks
  · exact mapLookup_insert_self c.blocksMapByHash (hexEncode b.hash) b
  · exact mapLookup_insert_self c.blocksMapByMerkelRoot (hexEncode b.merkelRoot) b

/-- Claim C7: persisting and reloading a blockchain preserves the
ordered block sequence; only the sequence is serialized (the maps are
not); and the rebuilt indices make every stored block findable by its
hash and by its Merkle root (the found block carrying the same key). -/
theorem persist_load_roundtrip (c : Blockchain) :
    (blockchainFromFile (writeToFile c)).blocks = c.blocks ∧
    writeToFile c = c.blocks ∧
    (∀ b, b ∈ c.blocks →
      (getBlockByHash (blockchainFromFile (writeToFile c)) b.hash).map
          (fun b1 => hexEncode b1.hash) = some (hexEncode b.hash) ∧
      (getBlockByMerkelRoot (blockchainFromFile (writeToFile c)) b.merkelRoot).map
          (fun b1 => hexEncode b1.merkelRoot) = some (hexEncode b.merkelRoot)) := by
  refine ⟨rfl, rfl, ?_⟩
  intro b hb
  constructor
  · obtain ⟨b1, hl, hk⟩ := mapLookup_foldl (fun blk => hexEncode blk.hash) c.blocks []
      (hexEncode b.hash) (Or.inr ⟨b, hb, rfl⟩)
    rw [show getBlockByHash (blockchainFromFile (writeToFile c)) b.hash =
      mapLookup (c.blocks.foldl
        (fun m block => mapInsert m (hexEncode block.hash) block) []) (hexEncode b.hash)
      from rfl]
    rw [hl]
    simp [hk]
  · obtain ⟨b1, hl, hk⟩ := mapLookup_foldl (fun blk => hexEncode blk.merkelRoot) c.blocks []
      (hexEncode b.merkelRoot) (Or.inr ⟨b, hb, rfl⟩)
    rw [show getBlockByMerkelRoot (blockchainFromFile (writeToFile c)) b.merkelRoot =
      mapLookup (c.blocks.foldl
        (fun m block => mapInsert m (hexEncode block.merkelRoot) block) [])
        (hexEncode b.merkelRoot) from rfl]
    rw [hl]
    simp [hk]

/-- Witness for C7: a concrete two-block chain (with stale map fields,
which persistence drops) round-trips with both lookups succeeding on the
second block. -/
theorem persist_load_roundtrip_witness :
    (blockchainFromFile (writeToFile ⟨[Block.mk 0 [] [1] [] [2] 0,
        Block.mk 1 [] [3] [2] [4] 0], [], []⟩)).blocks =
      (⟨[Block.mk 0 [] [1] [] [2] 0, Block.mk 1 [] [3] [2] [4] 0], [], []⟩ :
        Blockchain).blocks ∧
    (getBlockByHash (blockchainFromFile (writeToFile ⟨[Block.mk 0 [] [1] [] [2] 0,
        Block.mk 1 [] [3] [2] [4] 0], [], []⟩)) [4]).map
      (fun b1 => hexEncode b1.hash) = some (hexEncode [4]) ∧
    (getBlockByMerkelRoot (blockchainFromFile (writeToFile ⟨[Block.mk 0 [] [1] [] [2] 0,
        Block.mk 1 [] [3] [2] [4] 0], [], []⟩)) [3]).map
      (fun b1 => hexEncode b1.merkelRoot) = some (hexEncode [3]) := by
  have h := persist_load_roundtrip ⟨[Block.mk 0 [] [1] [] [2] 0,
    Block.mk 1 [] [3] [2] [4] 0], [], []⟩
  have h2 := h.2.2 (Block.mk 1 [] [3] [2] [4] 0) (by simp)
  exact ⟨h.1, h2.1, h2.2⟩

theorem chainLinked_iff :
    ∀ bs : List Block, chainLinked bs = true ↔
      List.Chain' (fun a b => b.prevHash = a.hash) bs
  | [] => by simp [chainLinked]
  | [_] => by simp [chainLinked]
  | a :: b :: rest => by
    rw [List.chain'_cons]
    simp only [chainLinked, Bool.and_eq_true, decide_eq_true_eq]
    rw [chainLinked_iff (b :: rest)]

/-- Erase every field of a block that chain validation is claimed not to
look at (index, timestamp, Merkle root and nonce — hence any
proof-of-work or hash-correctness evidence), keeping only the linkage
fields. -/
def scrubBlock (b : Block) : Block :=
  {b with index := 0, timestamp := [], merkelRoot := [], nonce := 0}

theorem scrubBlock_prevHash (b : Block) : (scrubBlock b).prevHash = b.prevHash := rfl

theorem scrubBlock_hash (b : Block) : (scrubBlock b).hash = b.hash := rfl

/-- Replace block `j`'s `prevHash` by `v`, leaving the rest of the chain
untouched. -/
def setPrevHash (c : Blockchain) (j : Nat) (v : Bytes) : Blockchain :=
  {c with blocks := c.blocks.set j {c.blocks.getD j default with prevHash := v}}

/-- Erase the non-linkage fields of every block of the chain. -/
def scrubChain (c : Blockchain) : Blockchain :=
  {c with blocks := c.blocks.map scrubBlock}

theorem chainLinked_scrub :
    ∀ bs : List Block, chainLinked (bs.map scrubBlock) = chainLinked bs
  | [] => rfl
  | [_] => rfl
  | a :: b :: rest => by
    rw [List.map_cons, List.map_cons]
    simp only [chainLinked, scrubBlock_prevHash, scrubBlock_hash]
    rw [← List.map_cons scrubBlock b rest, chainLinked_scrub (b :: rest)]

theorem setPrevHash_blocks (c : Blockchain) (j : Nat) (v : Bytes) :
    (setPrevHash c j v).blocks =
      c.blocks.set j {c.blocks.getD j default with prevHash := v} := rfl

theorem getD_set_self (l : List Block) (i : Nat) (a d : Block) (h : i < l.length) :
    (l.set i a).getD i d = a := by
  rw [List.getD_eq_getElem _ _ (by simpa using h)]
  exact List.getElem_set_self (by simpa using h)

theorem getD_set_ne (l : List Block) (i k : Nat) (a d : Block) (hne : i ≠ k) :
    (l.set i a).getD k d = l.getD k d := by
  by_cases hk : k < l.length
  · rw [List.getD_eq_getElem _ _ (by simpa using hk), List.getD_eq_getElem _ _ hk]
    exact List.getElem_set_ne hne _
  · rw [List.getD_eq_default _ _ (by simpa using hk), List.getD_eq_default _ _ (by omega)]

/-- A chain that passes the linkage loop links every adjacent pair. -/
theorem chainLinked_adjacent :
    ∀ bs : List Block, chainLinked bs = true →
      ∀ j, 1 ≤ j → j < bs.length →
        (bs.getD j default).prevHash = (bs.getD (j - 1) default).hash
  | [], _, j, _, hj => by simp at hj
  | [_], _, j, hj1, hj => by simp at hj; omega
  | a :: b :: rest, h, j, hj1, hj => by
    simp only [chainLinked, Bool.and_eq_true, decide_eq_true_eq] at h
    match j, hj1 with
    | 1, _ => exact h.1
    | k + 2, _ =>
      have hrec := chainLinked_adjacent (b :: rest) h.2 (k + 1) (by omega)
        (by simp only [List.length_cons] at hj ⊢; omega)
      have h21 : k + 2 - 1 = k + 1 := rfl
      have h11 : k + 1 - 1 = k := rfl
      rw [h21, List.getD_cons_succ, List.getD_cons_succ]
      rw [h11] at hrec
      exact hrec

/-- Claim C5: `validateChain()` is true exactly when every adjacent pair
satisfies the `prevHash` linkage; mutating any one block's `prevHash` to
a value other than its predecessor's hash makes it false; and it reads
nothing but the linkage fields — erasing every other field (and with
them any proof-of-work or per-block hash evidence) never changes its
verdict. -/
theorem validateChain_spec :
    (∀ c : Blockchain, validateChain c = true ↔
      List.Chain' (fun a b => b.prevHash = a.hash) c.blocks) ∧
    (∀ (c : Blockchain) (j : Nat) (v : Bytes), validateChain c = true → 1 ≤ j →
      j < c.blocks.length → v ≠ (c.blocks.getD (j - 1) default).hash →
      validateChain (setPrevHash c j v) = false) ∧
    (∀ c : Blockchain, validateChain (scrubChain c) = validateChain c) := by
  refine ⟨fun c => chainLinked_iff c.blocks, ?_, fun c => chainLinked_scrub c.blocks⟩
  intro c j v _hvalid hj1 hj hv
  cases h : validateChain (setPrevHash c j v) with
  | false => rfl
  | true =>
    exfalso
    apply hv
    have hadj := chainLinked_adjacent (setPrevHash c j v).blocks h j hj1
      (by rw [setPrevHash_blocks, List.length_set]; omega)
    rw [setPrevHash_blocks] at hadj
    rw [getD_set_self _ _ _ _ hj, getD_set_ne _ _ _ _ _ (by omega)] at hadj
    exact hadj

/-- The concrete linked two-block chain used to exercise
`validateChain_spec`. -/
def wChain : Blockchain :=
  ⟨[Block.mk 0 [] [] [] [2] 0, Block.mk 1 [] [] [2] [4] 0], [], []⟩

/-- Witness for C5: the concrete linked chain validates, breaking the
second block's `prevHash` invalidates it, and erasing all non-linkage
fields does not change the verdict. -/
theorem validateChain_spec_witness :
    (validateChain wChain = true ↔
      List.Chain' (fun a b => b.prevHash = a.hash) wChain.blocks) ∧
    validateChain (setPrevHash wChain 1 [9]) = false ∧
    validateChain (scrubChain wChain) = validateChain wChain := by
  refine ⟨validateChain_spec.1 _, ?_, validateChain_spec.2.2 _⟩
  exact validateChain_spec.2.1 wChain 1 [9] (by decide) (by decide) (by decide) (by decide)

/-! ## The superseded nibble-based difficulty check and the hash-domain
nonce encoding -/

/-- Model of `validateProofOfWork(hash, difficulty)` (the earlier, nibble-based
check): the first `difficulty / 2` whole bytes must be zero, and for odd
difficulty the next nibble (high four bits of the following byte) must
be zero too. Go's out-of-range index panic is not modelled (the checks
below only use 32-byte hashes, where `difficulty ≤ 64` stays in
range). -/
def validateProofOfWork (hash : Bytes) (difficulty : Nat) : Bool :=
  if ¬((List.range (difficulty / 2)).all fun i => hash.getD i 0 == 0) then false
  else if difficulty % 2 = 1 then
    if hash.getD (difficulty / 2) 0 &&& 0xF0 ≠ 0 then false else true
  else true

/-- Claim C8: the nibble-based check and the numeric target comparison
disagree for an odd difficulty: the 32-byte hash `0x40 00 ... 00` fails
the nibble check at difficulty 1 (its first hex digit is `4`, not `0`)
but its integer value `2^254` is below `target 1 = 2^255 - 1`. -/
theorem nibble_numeric_disagree :
    (64 :: List.replicate 31 0 : Bytes).length = 32 ∧
    1 % 2 = 1 ∧
    validateProofOfWork (64 :: List.replicate 31 0) 1 = false ∧
    bytesToNat (64 :: List.replicate 31 0) ≤ target 1 := by
  refine ⟨by simp, rfl, by decide, by decide⟩

/-- Claim C6 (failing part): `calculateHash` encodes the nonce through
Go's `string(rune(nonce))`, which maps every code point above U+10FFFF
(and every surrogate and negative value) to the replacement character
U+FFFD. Two blocks that differ only in such nonces therefore hash
identically, for every digest function — the nonce does not always
influence the hash, contradicting the determinism property of the spec
and the intent of the repository's own nonce test. -/
theorem calculateHash_nonce_collision :
    (Block.mk 0 [] [] [] [] 1114112).nonce ≠ (Block.mk 0 [] [] [] [] 1114113).nonce ∧
    ∀ H : Bytes → Bytes,
      calculateHash H (Block.mk 0 [] [] [] [] 1114112) =
        calculateHash H (Block.mk 0 [] [] [] [] 1114113) := by
  constructor
  · decide
  · intro H
    unfold calculateHash
    congr 1

end BlockchainStorage
